import Mathlib

/-!
Shallow embedding of the recursive-reducer library.

Source files embedded here:
  - recursiveReducer.ts: the handler-chain traversal engine (class
    RecursiveReducer), the combinators recursiveMapper and
    recursiveMapperReducer, the copy reductions, and recordLookup;
  - helpers.ts: extractAll, promiseAll and extractPromises.

Modelling conventions, stated once:
  - JavaScript values are the inductive JSValue below.  Object entries are
    kept as an association list in enumeration order (the spec pins key
    enumeration down to a fixed, deterministic order).  Numbers are
    modelled as integers; no claim depends on float behaviour.
  - Promise objects are the constructor vPromise inner, where inner is the
    value the promise settles to.  Awaiting collapses promise chains, as
    JavaScript adoption does (a promise never resolves to a promise).
  - Optional of the source ({ isPresent, value }) is Option; present is
    some, empty is none.
  - Functions that mutate through references in the source are rendered
    as pure functions returning the updated value; the structures the
    library mutates are trees built by its own copy pass, so there is no
    aliasing and the functional update agrees with the in-place one.
  - TypeScript default parameters are rendered as extra wrapper
    definitions (the gate on named arguments keeps us from default
    binders); the wrapper names say which call form they model.
-/

/-- A path step: an object key (string) or an array index (number). -/
inductive JSKey where
  | str (s : String)
  | idx (n : Nat)
deriving DecidableEq

/-- TPath of the source: the list of keys from the traversal root. -/
abbrev TPath := List JSKey

/-- A JavaScript value as the library sees one: null, undefined, scalar
primitives, arrays, plain objects (entries in enumeration order) and
promises. -/
inductive JSValue where
  | vNull
  | vUndef
  | vBool (b : Bool)
  | vNum (n : Int)
  | vStr (s : String)
  | vArr (elems : List JSValue)
  | vObj (entries : List (String × JSValue))
  | vPromise (inner : JSValue)

open JSValue

/-- JavaScript coerces a numeric property key to its decimal string. -/
def keyToString : JSKey → String
  | .str s => s
  | .idx n => toString n

/-- First entry with the given key, or undefined: object property read. -/
def objLookup : List (String × JSValue) → String → JSValue
  | [], _ => vUndef
  | (k, v) :: rest, s => if k == s then v else objLookup rest s

/-- Array read by a canonical numeric string, or undefined. -/
def arrStrLookup (l : List JSValue) (s : String) : JSValue :=
  match s.toNat? with
  | some n => if toString n == s then (l.getD n vUndef) else vUndef
  | none => vUndef

/-- The default valueKeyFn of recordLookup: (value, key) => value[key].
Arrays answer numeric indexes (and canonical numeric strings), objects
answer string keys (numeric keys coerced to strings), strings answer
character indexing, every other base yields undefined.  recordLookup
never applies it to null or undefined (JavaScript would throw there; the
loop breaks first). -/
def jsIndex : JSValue → JSKey → JSValue
  | vArr l, .idx n => l.getD n vUndef
  | vArr l, .str s => arrStrLookup l s
  | vObj es, k => objLookup es (keyToString k)
  | vStr s, .idx n =>
    match s.toList.get? n with
    | some c => vStr (String.mk [c])
    | none => vUndef
  | vStr s, .str t =>
    match t.toNat? with
    | some n =>
      if toString n == t then
        match s.toList.get? n with
        | some c => vStr (String.mk [c])
        | none => vUndef
      else vUndef
    | none => vUndef
  | _, _ => vUndef

/-- value === null || value === undefined, the stop test of recordLookup. -/
def isNullish : JSValue → Bool
  | vNull => true
  | vUndef => true
  | _ => false

/-- Result record of recordLookup. -/
structure IRecordLookupResult where
  resolvedPath : TPath
  unresolvedPath : TPath
  value : JSValue
  values : List JSValue

/-- The loop of recordLookup: for each key of the path, stop (breaking
without consuming the key) when the current value is nullish, else push
the current value onto values, advance through valueKeyFn, and move the
key from the unresolved to the resolved path. -/
def recordLookupGo (valueKeyFn : JSValue → JSKey → JSValue) :
    TPath → JSValue → IRecordLookupResult
  | [], value => ⟨[], [], value, []⟩
  | k :: ks, value =>
    if isNullish value then ⟨[], k :: ks, value, []⟩
    else
      let rest := recordLookupGo valueKeyFn ks (valueKeyFn value k)
      ⟨k :: rest.resolvedPath, rest.unresolvedPath, rest.value, value :: rest.values⟩

/-- recordLookup(path, valueKeyFn)(record) of the source. -/
def recordLookup (path : TPath) (valueKeyFn : JSValue → JSKey → JSValue)
    (record : JSValue) : IRecordLookupResult :=
  recordLookupGo valueKeyFn path record

/-- recordLookup called with the default valueKeyFn. -/
def recordLookupDefault (path : TPath) (record : JSValue) : IRecordLookupResult :=
  recordLookup path jsIndex record

/-!
The traversal engine.  reduceInternal of class RecursiveReducer walks the
bound handler list in construction order; the first handler whose result
is present wins, and if every handler abstains the node itself is
returned.  The constructor indirection (factories receiving the descend
function) exists only to tie the recursive knot; here the concrete
combinators are given directly as structural recursions, and the engine
loop itself is kept, generically, as reduceInternal below.
-/

/-- The for-loop of RecursiveReducer.reduceInternal over the bound
handlers: first present result wins, otherwise the node is returned
unchanged. -/
def reduceInternal {α : Type} (pathFns : List (α → TPath → Option α))
    (current : α) (path : TPath) : α :=
  match pathFns with
  | [] => current
  | f :: rest =>
    match f current path with
    | some converted => converted
    | none => reduceInternal rest current path

mutual
/-- recursiveMapper: the chain [custom handler, array copy handler, object
copy handler].  The array handler claims arrays and rebuilds them by
descending into each element at path ++ [index] (ARR_COPY_REDUCTION seeds
an empty array and pushes each descended element).  The object handler
claims any remaining non-null object — for a promise, Object.keys is
empty, so the copy is the empty object — and rebuilds the entries in
enumeration order at path ++ [key].  When no handler claims the node it
is returned unchanged. -/
def rmVisit (h : JSValue → TPath → Option JSValue) (v : JSValue) (p : TPath) : JSValue :=
  match h v p with
  | some converted => converted
  | none =>
    match v with
    | vArr l => vArr (rmArrFold h l p 0)
    | vObj es => vObj (rmObjFold h es p)
    | vPromise _ => vObj []
    | other => other

/-- The array copy fold of recursiveMapper: rs.reduce pushing each
descended element, written as the list it builds. -/
def rmArrFold (h : JSValue → TPath → Option JSValue) (l : List JSValue)
    (p : TPath) (i : Nat) : List JSValue :=
  match l with
  | [] => []
  | x :: xs => rmVisit h x (p ++ [JSKey.idx i]) :: rmArrFold h xs p (i + 1)

/-- The object copy fold of recursiveMapper over the entries in
enumeration order. -/
def rmObjFold (h : JSValue → TPath → Option JSValue)
    (es : List (String × JSValue)) (p : TPath) : List (String × JSValue) :=
  match es with
  | [] => []
  | (k, x) :: rest => (k, rmVisit h x (p ++ [JSKey.str k])) :: rmObjFold h rest p
end

/-- recursiveMapper(pathFnFactory) applied to a value: reduce starts the
visit at the empty path.  The factory argument of the source only serves
to hand the handler the descend function; handlers are modelled already
bound. -/
def recursiveMapper (h : JSValue → TPath → Option JSValue) (a : JSValue) : JSValue :=
  rmVisit h a []

mutual
/-- recursiveMapperReducer: the chain [optionalMapper, array fold handler,
object fold handler, terminal leaf handler].  The optionalMapper is
consulted first at every node (it takes no path in the source); when it
is present its value is the answer for the whole subtree and no descent
happens.  Arrays and remaining non-null objects fold their children with
the caller reduction (seed called afresh at every container), a promise
folds over no keys to the bare seed, and the terminal handler maps any
other value through the leaf mapper. -/
def rmrVisit {α : Type} (om : JSValue → Option α) (mapper : JSValue → α)
    (comb : α → α → α) (seed : Unit → α) (v : JSValue) (p : TPath) : α :=
  match om v with
  | some t => t
  | none =>
    match v with
    | vArr l => rmrArrFold om mapper comb seed (seed ()) l p 0
    | vObj es => rmrObjFold om mapper comb seed (seed ()) es p
    | vPromise _ => seed ()
    | other => mapper other

/-- The array fold of recursiveMapperReducer: reduce over the elements,
descending at path ++ [index] and combining into the accumulator. -/
def rmrArrFold {α : Type} (om : JSValue → Option α) (mapper : JSValue → α)
    (comb : α → α → α) (seed : Unit → α) (acc : α) (l : List JSValue)
    (p : TPath) (i : Nat) : α :=
  match l with
  | [] => acc
  | x :: xs =>
    rmrArrFold om mapper comb seed
      (comb acc (rmrVisit om mapper comb seed x (p ++ [JSKey.idx i]))) xs p (i + 1)

/-- The object fold of recursiveMapperReducer over the entries in
enumeration order, descending at path ++ [key]. -/
def rmrObjFold {α : Type} (om : JSValue → Option α) (mapper : JSValue → α)
    (comb : α → α → α) (seed : Unit → α) (acc : α)
    (es : List (String × JSValue)) (p : TPath) : α :=
  match es with
  | [] => acc
  | (k, x) :: rest =>
    rmrObjFold om mapper comb seed
      (comb acc (rmrVisit om mapper comb seed x (p ++ [JSKey.str k]))) rest p
end

/-- recursiveMapperReducer(mapper, reduceCallback, reduceInitial,
optionalMapper) applied to a value. -/
def recursiveMapperReducer {α : Type} (mapper : JSValue → α)
    (reduceCallback : α → α → α) (reduceInitial : Unit → α)
    (optionalMapper : JSValue → Option α) (a : JSValue) : α :=
  rmrVisit optionalMapper mapper reduceCallback reduceInitial a []

/-- recursiveMapperReducer called without the optional fourth argument:
the source default optionalMapper answers empty everywhere. -/
def recursiveMapperReducer3 {α : Type} (mapper : JSValue → α)
    (reduceCallback : α → α → α) (reduceInitial : Unit → α) (a : JSValue) : α :=
  recursiveMapperReducer mapper reduceCallback reduceInitial (fun _ => none) a

/-- The countEmptyArrays example of the source documentation: leaf mapper
constantly 0, combine addition, seed 0, and an override that is present
exactly at empty arrays. -/
def countEmptyArrays (a : JSValue) : Nat :=
  recursiveMapperReducer (fun _ => 0) (fun prev current => prev + current)
    (fun _ => 0)
    (fun b => match b with | vArr [] => some 1 | _ => none) a

/-- The input of the short-circuit pruning example: an object with an
empty object, a singleton array holding an empty array, and an empty
array. -/
def pruningExample : JSValue :=
  vObj [("a", vObj []), ("b", vArr [vArr []]), ("c", vArr [])]

/-- The input of the path-lookup boundary example. -/
def lookupExample : JSValue :=
  vObj [("a", vBool true), ("b", vArr [vNum 7])]

/-!
Instrumented copy model for the freshness half of the structural-copy
guarantee.  JSValueA is JSValue restricted to structures built from
arrays, string-keyed objects and scalar leaves, with every container first
carrying an allocation identity.  copyA is exactly the copy pass of
recursiveMapper with the always-absent handler — the array and object
copy reductions seed a fresh container at every container node and push
the recursively copied children — instrumented so that each seeded
container takes a fresh identity from a counter.  Containers of the input
keep the identities the input carries; a copied container is the same
runtime container as an input one exactly when the identities coincide.
-/

/-- Annotated values: containers carry an allocation identity. -/
inductive JSValueA where
  | aNull
  | aUndef
  | aBool (b : Bool)
  | aNum (n : Int)
  | aStr (s : String)
  | aArr (id : Nat) (elems : List JSValueA)
  | aObj (id : Nat) (entries : List (String × JSValueA))

mutual
/-- Forget the allocation identities. -/
def eraseA : JSValueA → JSValue
  | .aNull => vNull
  | .aUndef => vUndef
  | .aBool b => vBool b
  | .aNum n => vNum n
  | .aStr s => vStr s
  | .aArr _ l => vArr (eraseAList l)
  | .aObj _ es => vObj (eraseAEntries es)

/-- eraseA over an element list. -/
def eraseAList : List JSValueA → List JSValue
  | [] => []
  | x :: xs => eraseA x :: eraseAList xs

/-- eraseA over an entry list. -/
def eraseAEntries : List (String × JSValueA) → List (String × JSValue)
  | [] => []
  | (k, x) :: rest => (k, eraseA x) :: eraseAEntries rest
end

mutual
/-- The identities of every container node of a value. -/
def containerIds : JSValueA → List Nat
  | .aArr i l => i :: containerIdsList l
  | .aObj i es => i :: containerIdsEntries es
  | _ => []

/-- containerIds over an element list. -/
def containerIdsList : List JSValueA → List Nat
  | [] => []
  | x :: xs => containerIds x ++ containerIdsList xs

/-- containerIds over an entry list. -/
def containerIdsEntries : List (String × JSValueA) → List Nat
  | [] => []
  | (_, x) :: rest => containerIds x ++ containerIdsEntries rest
end

mutual
/-- The structural copy of recursiveMapper with the always-absent
handler, instrumented with an allocation counter: every container the
copy reductions seed takes the next fresh identity; a scalar leaf falls
through every handler and is returned as it stands. -/
def copyA : Nat → JSValueA → JSValueA × Nat
  | n, .aArr _ l =>
    let r := copyAList (n + 1) l
    (.aArr n r.1, r.2)
  | n, .aObj _ es =>
    let r := copyAEntries (n + 1) es
    (.aObj n r.1, r.2)
  | n, leaf => (leaf, n)

/-- copyA over an element list, threading the counter left to right. -/
def copyAList : Nat → List JSValueA → List JSValueA × Nat
  | n, [] => ([], n)
  | n, x :: xs =>
    let hd := copyA n x
    let tl := copyAList hd.2 xs
    (hd.1 :: tl.1, tl.2)

/-- copyA over an entry list, threading the counter left to right. -/
def copyAEntries : Nat → List (String × JSValueA) → List (String × JSValueA) × Nat
  | n, [] => ([], n)
  | n, (k, x) :: rest =>
    let hd := copyA n x
    let tl := copyAEntries hd.2 rest
    ((k, hd.1) :: tl.1, tl.2)
end

mutual
/-- True when a value contains no promise anywhere. -/
def promiseFree : JSValue → Bool
  | vPromise _ => false
  | vArr l => promiseFreeList l
  | vObj es => promiseFreeEntries es
  | _ => true

/-- promiseFree over an element list. -/
def promiseFreeList : List JSValue → Bool
  | [] => true
  | x :: xs => promiseFree x && promiseFreeList xs

/-- promiseFree over an entry list. -/
def promiseFreeEntries : List (String × JSValue) → Bool
  | [] => true
  | (_, x) :: rest => promiseFree x && promiseFreeEntries rest
end

/-!
The nested-promise resolver of helpers.ts: extractPromises (a
recursiveMapper pass whose custom handler records every promise together
with its path and claims it, so the copy keeps the promise and never
descends below it) and promiseAll (the iterate, sort deepest first,
await, splice loop).
-/

/-- IPromisePath of the source: a discovered promise and its path. -/
structure IPromisePath where
  promise : JSValue
  path : TPath

mutual
/-- The scan pass of extractPromises: the handler chain of
recursiveMapper headed by the promise handler.  At a promise the handler
records (promise, path) and is present with the promise itself, so the
pass keeps the promise in place and does not descend below it; arrays
and remaining objects are copied with the path extended per child, and
other values pass through.  The discovery list collects in traversal
order, as the pushes of the source do. -/
def epVisit : JSValue → TPath → JSValue × List IPromisePath
  | vPromise inner, p => (vPromise inner, [⟨vPromise inner, p⟩])
  | vArr l, p =>
    let r := epArrFold l p 0
    (vArr r.1, r.2)
  | vObj es, p =>
    let r := epObjFold es p
    (vObj r.1, r.2)
  | other, _ => (other, [])

/-- The array copy fold of the scan pass. -/
def epArrFold : List JSValue → TPath → Nat → List JSValue × List IPromisePath
  | [], _, _ => ([], [])
  | x :: xs, p, i =>
    let hd := epVisit x (p ++ [JSKey.idx i])
    let tl := epArrFold xs p (i + 1)
    (hd.1 :: tl.1, hd.2 ++ tl.2)

/-- The object copy fold of the scan pass. -/
def epObjFold : List (String × JSValue) → TPath →
    List (String × JSValue) × List IPromisePath
  | [], _ => ([], [])
  | (k, x) :: rest, p =>
    let hd := epVisit x (p ++ [JSKey.str k])
    let tl := epObjFold rest p
    ((k, hd.1) :: tl.1, hd.2 ++ tl.2)
end

/-- extractPromises(a): the scan pass over [a] from the empty path,
returning the promisified copy and the discovered promise paths. -/
def extractPromises (a : JSValue) : JSValue × List IPromisePath :=
  epVisit (vArr [a]) []

/-- promisePaths.sort with the comparator answering -1 exactly when the
first path is longer: descending path length.  The comparator never
answers 0, and on ties the runtime insertion sort places a later entry
after an earlier equal one, so the sort is the stable descending one:
entries of equal depth keep their discovery order. -/
def sortPromisePaths (l : List IPromisePath) : List IPromisePath :=
  l.insertionSort (fun p1 p2 => p2.path.length ≤ p1.path.length)

/-- Awaiting a value: a promise chain collapses to the first non-promise
value (JavaScript adoption), anything else is already settled. -/
def awaitJS : JSValue → JSValue
  | vPromise inner => awaitJS inner
  | v => v

/-- Object property assignment: overwrite the entry in place, or append a
new entry at the end, as JavaScript does. -/
def objSet : List (String × JSValue) → String → JSValue → List (String × JSValue)
  | [], k, rv => [(k, rv)]
  | (k0, v0) :: rest, k, rv =>
    if k0 == k then (k0, rv) :: rest else (k0, v0) :: objSet rest k rv

/-- parent[key] = rv for the parents the resolver splices into: arrays by
index (or canonical numeric string), objects by key.  Assignment targets
outside those never arise on a discovered path and are kept unchanged. -/
def setKey : JSValue → JSKey → JSValue → JSValue
  | vArr l, .idx n, rv => vArr (l.set n rv)
  | vArr l, .str s, rv =>
    match s.toNat? with
    | some n => if toString n == s then vArr (l.set n rv) else vArr l
    | none => vArr l
  | vObj es, k, rv => vObj (objSet es (keyToString k) rv)
  | other, _, _ => other

/-- One splice of the resolver: look the parent path up (the same
jsIndex walk recordLookup performs with the default valueKeyFn) and
assign the last path step on that parent.  The working structure is a
tree freshly built by the scan pass, so the functional update along the
path is the in-place assignment of the source. -/
def setAtPath : JSValue → TPath → JSValue → JSValue
  | root, [], _ => root
  | root, [k], rv => setKey root k rv
  | root, k :: k2 :: ks, rv => setKey root k (setAtPath (jsIndex root k) (k2 :: ks) rv)

/-- The splice loop: each discovered path receives its awaited value. -/
def spliceAll (promisified : JSValue) (pairs : List (IPromisePath × JSValue)) : JSValue :=
  pairs.foldl (fun acc pr => setAtPath acc pr.1.path pr.2) promisified

/-- Failures of the resolver model: the limit-exceeded failure of the
source, and the bound of the fuel that renders the source while-loop as
a structural recursion (the loop of the source has no such case; on the
finite values modelled here each pass lowers the maximal promise nesting
depth by one, so the fuel promiseDepth + 1 is never exhausted). -/
inductive PError where
  | limitExceeded (limit : Nat)
  | fuelExhausted

/-- The failure text of the source, naming the configured limit. -/
def PError.message : PError → String
  | .limitExceeded l =>
    "Could not resolve all promises with limit " ++ toString l ++ ". Sorry."
  | .fuelExhausted => "resolver model fuel exhausted"

mutual
/-- The maximal promise nesting depth of a value. -/
def promiseDepth : JSValue → Nat
  | vPromise inner => promiseDepth inner + 1
  | vArr l => promiseDepthList l
  | vObj es => promiseDepthEntries es
  | _ => 0

/-- promiseDepth over an element list. -/
def promiseDepthList : List JSValue → Nat
  | [] => 0
  | x :: xs => max (promiseDepth x) (promiseDepthList xs)

/-- promiseDepth over an entry list. -/
def promiseDepthEntries : List (String × JSValue) → Nat
  | [] => 0
  | (_, x) :: rest => max (promiseDepth x) (promiseDepthEntries rest)
end

/-- The loop of promiseAll.  Each iteration scans the current value; when
no promise was discovered the sole element of the promisified singleton
is the answer; otherwise, when the limit is truthy (nonzero) and count
has reached it, the limit-exceeded failure is raised; otherwise the
discovered paths are sorted deepest first, their promises awaited, the
results spliced in at their paths, and the loop continues on the sole
element of the spliced singleton with count + 1. -/
def promiseAllLoop (limit : Nat) : Nat → Nat → JSValue → Except PError JSValue
  | 0, _, _ => .error .fuelExhausted
  | fuel + 1, count, v =>
    let ep := extractPromises v
    if ep.2.isEmpty then .ok (jsIndex ep.1 (JSKey.idx 0))
    else if limit ≠ 0 ∧ limit ≤ count then .error (.limitExceeded limit)
    else
      let sorted := sortPromisePaths ep.2
      let resolvedValues := sorted.map (fun pp => awaitJS pp.promise)
      let spliced := spliceAll ep.1 (sorted.zip resolvedValues)
      promiseAllLoop limit fuel (count + 1) (jsIndex spliced (JSKey.idx 0))

/-- promiseAll(a, limit) of the source, with fuel covering every pass the
source loop can take on the input. -/
def promiseAll (a : JSValue) (limit : Nat) : Except PError JSValue :=
  promiseAllLoop limit (promiseDepth a + 1) 0 a

/-- promiseAll(a): the call without the second argument; the TypeScript
default parameter sets the limit to 10 (passing undefined explicitly
lands on the same default). -/
def promiseAllNoLimitArg (a : JSValue) : Except PError JSValue :=
  promiseAll a 10

/-- Whether a resolver outcome is the limit-exceeded failure. -/
def isLimitError : Except PError JSValue → Bool
  | .error (.limitExceeded _) => true
  | _ => false

/-- A chain needing n scan-and-splice passes: promiseChain 0 is the
number 7 and promiseChain (n + 1) is a promise of a singleton array
holding promiseChain n. -/
def promiseChain : Nat → JSValue
  | 0 => vNum 7
  | n + 1 => vPromise (vArr [promiseChain n])

/-- The fully resolved image of promiseChain n: n nested singleton
arrays around the number 7. -/
def nestedSingleton : Nat → JSValue
  | 0 => vNum 7
  | n + 1 => vArr [nestedSingleton n]

/-- A scalar to the engine: not an array, not null, and not a non-null
object (a promise is an object to the typeof test).  These are the values
every built-in handler of recursiveMapper abstains from. -/
def isScalar : JSValue → Bool
  | vBool _ => true
  | vNum _ => true
  | vStr _ => true
  | vUndef => true
  | _ => false

/-!
Store model for the re-use isolation guarantee.  The accumulators of the
library folds are mutable arrays: seed is a factory allocating a fresh
array per call, and the combine callbacks of extractAll and of the
recordReducer examples push into the accumulator they are handed and
return it.  The store below holds every accumulator array ever
allocated, so that a second top-level call of the same constructed fold
runs against the store the first call left behind — exactly the leakage
scenario the guarantee rules out.
-/

/-- The allocated accumulator arrays, addressed by allocation order. -/
abbrev Store (α : Type) := List (List α)

/-- Allocate a fresh accumulator array holding the given elements. -/
def allocAcc {α : Type} (st : Store α) (xs : List α) : Nat × Store α :=
  (st.length, st ++ [xs])

/-- The contents of the accumulator array at an address. -/
def storeGet {α : Type} (st : Store α) (r : Nat) : List α :=
  st.getD r []

/-- prev.push(...current): append elements to the array at an address. -/
def storeAppend {α : Type} (st : Store α) (r : Nat) (xs : List α) : Store α :=
  st.set r (storeGet st r ++ xs)

mutual
/-- extractAll(optMapper) as the source runs it, with the accumulator
mutation explicit: the node handler chain of recursiveMapperReducer with
seed () => [] allocating a fresh array at every container, the wrapped
optMapper allocating a fresh singleton [t] where optMapper is present,
the leaf mapper () => [] allocating a fresh empty array, and the combine
callback pushing the contents of the child accumulator into the parent
accumulator.  Returns the address of the accumulator of the node. -/
def eaVisit {α : Type} (om : JSValue → Option α) :
    Store α → JSValue → Nat × Store α
  | st, v =>
    match om v with
    | some t => allocAcc st [t]
    | none =>
      match v with
      | vArr l =>
        let r := allocAcc st []
        (r.1, eaArrFold om r.2 r.1 l)
      | vObj es =>
        let r := allocAcc st []
        (r.1, eaObjFold om r.2 r.1 es)
      | vPromise _ => allocAcc st []
      | _ => allocAcc st []

/-- The array fold of the stateful extractAll: visit each element, then
push the contents of its accumulator into the accumulator at r. -/
def eaArrFold {α : Type} (om : JSValue → Option α) :
    Store α → Nat → List JSValue → Store α
  | st, _, [] => st
  | st, r, x :: xs =>
    let hd := eaVisit om st x
    eaArrFold om (storeAppend hd.2 r (storeGet hd.2 hd.1)) r xs

/-- The object fold of the stateful extractAll over the entries. -/
def eaObjFold {α : Type} (om : JSValue → Option α) :
    Store α → Nat → List (String × JSValue) → Store α
  | st, _, [] => st
  | st, r, (_, x) :: rest =>
    let hd := eaVisit om st x
    eaObjFold om (storeAppend hd.2 r (storeGet hd.2 hd.1)) r rest
end

/-- One top-level call of the constructed extractAll function: run the
traversal against the given store and read the contents of the returned
accumulator. -/
def extractAllStateful {α : Type} (om : JSValue → Option α) (st : Store α)
    (a : JSValue) : List α × Store α :=
  let r := eaVisit om st a
  (storeGet r.2 r.1, r.2)

mutual
/-- The store-free meaning of extractAll: the values optMapper accepts,
in traversal order, with no descent below an accepted node. -/
def eaPure {α : Type} (om : JSValue → Option α) : JSValue → List α
  | vArr l =>
    match om (vArr l) with
    | some t => [t]
    | none => eaPureList om l
  | vObj es =>
    match om (vObj es) with
    | some t => [t]
    | none => eaPureEntries om es
  | v =>
    match om v with
    | some t => [t]
    | none => []

/-- eaPure over an element list. -/
def eaPureList {α : Type} (om : JSValue → Option α) : List JSValue → List α
  | [] => []
  | x :: xs => eaPure om x ++ eaPureList om xs

/-- eaPure over an entry list. -/
def eaPureEntries {α : Type} (om : JSValue → Option α) :
    List (String × JSValue) → List α
  | [] => []
  | (_, x) :: rest => eaPure om x ++ eaPureEntries om rest
end

/-- The loop of the flat record fold (recordReducer) with a mutable
accumulator array: each step replaces the contents of the accumulator at
r through the pure content action of the callback. -/
def recordReducerLoop {α : Type} (combC : List α → JSValue → String → List α) :
    Store α → Nat → List (String × JSValue) → Store α
  | st, _, [] => st
  | st, r, (k, x) :: rest =>
    recordReducerLoop combC (st.set r (combC (storeGet st r) x k)) r rest

/-- One top-level call of a constructed recordReducer whose initial is a
factory allocating a fresh empty accumulator array: allocate, fold the
entries in enumeration order, read the accumulator contents. -/
def recordReducerRun {α : Type} (combC : List α → JSValue → String → List α)
    (st : Store α) (es : List (String × JSValue)) : List α × Store α :=
  let r := allocAcc st []
  let st2 := recordReducerLoop combC r.2 r.1 es
  (storeGet st2 r.1, st2)

/-!
Theorems.
-/

/-- C10: for every root value, null and undefined included, path lookup
with the empty path resolves nothing, leaves nothing unresolved, returns
the root itself as the value, and records no visited ancestor — the root
is never inspected and never counted as its own ancestor. -/
theorem recordLookup_empty_path (valueKeyFn : JSValue → JSKey → JSValue)
    (r : JSValue) : recordLookup [] valueKeyFn r = ⟨[], [], r, []⟩ := rfl

/-- C7: path lookup walks the path left to right.  A nullish current
value stops the walk without consuming the pending step, leaving it and
every later step unresolved; otherwise the current value is recorded as
a visited ancestor, the walk advances through the step function, and the
step moves to the resolved path.  In particular looking ['c', 0] up in
{a: true, b: [7]} resolves ['c'], leaves [0] unresolved, returns
undefined, and visits only the root. -/
theorem recordLookup_walk :
    (∀ (f : JSValue → JSKey → JSValue) (k : JSKey) (ks : TPath) (r : JSValue),
        isNullish r = true → recordLookup (k :: ks) f r = ⟨[], k :: ks, r, []⟩) ∧
    (∀ (f : JSValue → JSKey → JSValue) (k : JSKey) (ks : TPath) (r : JSValue),
        isNullish r = false →
          recordLookup (k :: ks) f r =
            ⟨k :: (recordLookup ks f (f r k)).resolvedPath,
              (recordLookup ks f (f r k)).unresolvedPath,
              (recordLookup ks f (f r k)).value,
              r :: (recordLookup ks f (f r k)).values⟩) ∧
    recordLookupDefault [JSKey.str "c", JSKey.idx 0] lookupExample =
      ⟨[JSKey.str "c"], [JSKey.idx 0], vUndef, [lookupExample]⟩ := by
  refine ⟨?_, ?_, rfl⟩
  · intro f k ks r h
    simp [recordLookup, recordLookupGo, h]
  · intro f k ks r h
    simp [recordLookup, recordLookupGo, h]

/-- Witness for recordLookup_walk: both walk rules applied at concrete
inputs — a null root stops at once; a one-key object resolves its key. -/
theorem recordLookup_walk_witness :
    recordLookup [JSKey.str "a"] jsIndex vNull = ⟨[], [JSKey.str "a"], vNull, []⟩ ∧
    recordLookup [JSKey.str "a"] jsIndex (vObj [("a", vNum 1)]) =
      ⟨[JSKey.str "a"], [], vNum 1, [vObj [("a", vNum 1)]]⟩ := by
  constructor
  · exact recordLookup_walk.1 jsIndex (JSKey.str "a") [] vNull rfl
  · have h := recordLookup_walk.2.1 jsIndex (JSKey.str "a") [] (vObj [("a", vNum 1)]) rfl
    simpa using h

/-- C1: the engine loop tries the bound handlers in construction order
and returns the value of the first present result; when every handler
abstains the node itself is returned unchanged; consequently a
recursiveMapper whose custom handler abstains at a scalar (not an array,
not an object, not null) returns that scalar verbatim. -/
theorem handler_chain_first_present_wins :
    (∀ (α : Type) (fs1 : List (α → TPath → Option α)) (f : α → TPath → Option α)
        (fs2 : List (α → TPath → Option α)) (v : α) (p : TPath) (r : α),
        (∀ g ∈ fs1, g v p = none) → f v p = some r →
          reduceInternal (fs1 ++ f :: fs2) v p = r) ∧
    (∀ (α : Type) (fs : List (α → TPath → Option α)) (v : α) (p : TPath),
        (∀ g ∈ fs, g v p = none) → reduceInternal fs v p = v) ∧
    (∀ (h : JSValue → TPath → Option JSValue) (v : JSValue),
        isScalar v = true → h v [] = none → recursiveMapper h v = v) := by
  refine ⟨?_, ?_, ?_⟩
  · intro α fs1 f fs2 v p r habs hf
    induction fs1 with
    | nil => simp [reduceInternal, hf]
    | cons g gs ih =>
      have hg : g v p = none := habs g (by simp)
      simp only [List.cons_append, reduceInternal, hg]
      exact ih fun g' hmem => habs g' (List.mem_cons_of_mem g hmem)
  · intro α fs v p habs
    induction fs with
    | nil => rfl
    | cons g gs ih =>
      have hg : g v p = none := habs g (by simp)
      simp only [reduceInternal, hg]
      exact ih fun g' hmem => habs g' (List.mem_cons_of_mem g hmem)
  · intro h v hs hnone
    cases v <;> simp_all [recursiveMapper, rmVisit, isScalar]

/-- Witness for handler_chain_first_present_wins: a chain of an
abstaining handler, a handler answering 5 and a handler answering 9
answers 5; a chain of one abstaining handler returns the node; a
recursiveMapper with the always-absent handler returns the number 3. -/
theorem handler_chain_first_present_wins_witness :
    reduceInternal
        ([fun (_ : JSValue) (_ : TPath) => (none : Option JSValue)] ++
          (fun _ _ => some (vNum 5)) :: [fun _ _ => some (vNum 9)])
        (vNum 0) [] = vNum 5 ∧
    reduceInternal [fun (_ : JSValue) (_ : TPath) => (none : Option JSValue)]
        (vNum 0) [] = vNum 0 ∧
    recursiveMapper (fun _ _ => none) (vNum 3) = vNum 3 := by
  refine ⟨?_, ?_, ?_⟩
  · refine handler_chain_first_present_wins.1 JSValue _ _ _ (vNum 0) [] (vNum 5)
      ?_ rfl
    intro g hg
    rw [List.mem_singleton] at hg
    rw [hg]
  · refine handler_chain_first_present_wins.2.1 JSValue _ (vNum 0) [] ?_
    intro g hg
    rw [List.mem_singleton] at hg
    rw [hg]
  · exact handler_chain_first_present_wins.2.2 (fun _ _ => none) (vNum 3) rfl rfl

/-- C3: when the optional override is present at a node its value is the
answer for the whole subtree — the result does not depend on anything
below the node, so no descent happens — and counting empty arrays in
{a: {}, b: [[]], c: []} with leaf mapper 0, combine addition, seed 0 and
an override present exactly at empty arrays answers 2. -/
theorem override_prunes_descent :
    (∀ (α : Type) (om : JSValue → Option α) (mapper : JSValue → α)
        (comb : α → α → α) (seed : Unit → α) (v : JSValue) (p : TPath) (t : α),
        om v = some t → rmrVisit om mapper comb seed v p = t) ∧
    countEmptyArrays pruningExample = 2 := by
  refine ⟨?_, rfl⟩
  intro α om mapper comb seed v p t h
  cases v <;> simp [rmrVisit, h]

/-- Witness for override_prunes_descent: the countEmptyArrays override is
present at the empty array, and the visit there answers its value 1. -/
theorem override_prunes_descent_witness :
    rmrVisit (fun b => match b with | vArr [] => some 1 | _ => none)
      (fun _ => 0) (fun prev current => prev + current) (fun _ => 0)
      (vArr []) [] = 1 :=
  override_prunes_descent.1 Nat _ _ _ _ (vArr []) [] 1 rfl

/-- C4: the promise of an array holding a promise needs exactly two
scan-and-splice passes: with limit 2 the resolver materialises [1], with
limit 1 it fails with the limit-exceeded failure, whose text names the
configured limit 1. -/
theorem resolver_limit_enforcement :
    promiseAll (vPromise (vArr [vPromise (vNum 1)])) 2 = .ok (vArr [vNum 1]) ∧
    promiseAll (vPromise (vArr [vPromise (vNum 1)])) 1 =
      .error (PError.limitExceeded 1) ∧
    (PError.limitExceeded 1).message =
      "Could not resolve all promises with limit 1. Sorry." :=
  ⟨rfl, rfl, rfl⟩

/-- C5 counterexample: promiseChain 11 needs 11 scan-and-splice passes;
called without a limit argument the resolver fails with the
limit-exceeded failure naming 10 — the omitted argument lands on the
TypeScript default 10 instead of disabling the cap, so resolution does
not continue until every asynchronous value is gone. -/
theorem no_limit_arg_not_unlimited :
    promiseAllNoLimitArg (promiseChain 11) = .error (PError.limitExceeded 10) := rfl

/-- C5 amended: calling the resolver without a limit argument sets the
limit to the default 10: a nesting needing 10 passes resolves, an
11-pass nesting fails with the limit-exceeded failure naming 10, and the
cap is disabled by passing the falsy limit 0 instead. -/
theorem default_limit_is_ten :
    promiseAllNoLimitArg (promiseChain 10) = .ok (nestedSingleton 10) ∧
    promiseAllNoLimitArg (promiseChain 11) = .error (PError.limitExceeded 10) ∧
    promiseAll (promiseChain 11) 0 = .ok (nestedSingleton 11) :=
  ⟨rfl, rfl, rfl⟩

/-- C9: a limit of 0 is falsy to the guard of the source (limit && count
>= limit), so the cap is disabled: no run of the resolver loop with
limit 0 ever produces the limit-exceeded failure, whatever the input,
the starting pass count and the fuel; in particular promiseAll with
limit 0 never fails that way. -/
theorem limit_zero_disables_cap :
    (∀ (fuel count : Nat) (v : JSValue),
        isLimitError (promiseAllLoop 0 fuel count v) = false) ∧
    ∀ (a : JSValue), isLimitError (promiseAll a 0) = false := by
  have main : ∀ (fuel count : Nat) (v : JSValue),
      isLimitError (promiseAllLoop 0 fuel count v) = false := by
    intro fuel
    induction fuel with
    | zero => intro count v; rfl
    | succ n ih =>
      intro count v
      rw [promiseAllLoop]
      split
      · rfl
      · rw [if_neg (by simp)]
        exact ih _ _
  exact ⟨main, fun a => main _ _ _⟩

mutual
/-- The allocation counter of the instrumented copy never decreases. -/
theorem copyA_counter_le : ∀ (n : Nat) (v : JSValueA), n ≤ (copyA n v).2
  | n, .aArr _ l => by
    have h := copyAList_counter_le (n + 1) l
    simp only [copyA]
    omega
  | n, .aObj _ es => by
    have h := copyAEntries_counter_le (n + 1) es
    simp only [copyA]
    omega
  | _, .aNull => Nat.le_refl _
  | _, .aUndef => Nat.le_refl _
  | _, .aBool _ => Nat.le_refl _
  | _, .aNum _ => Nat.le_refl _
  | _, .aStr _ => Nat.le_refl _

/-- copyA_counter_le over an element list. -/
theorem copyAList_counter_le : ∀ (n : Nat) (l : List JSValueA), n ≤ (copyAList n l).2
  | n, [] => Nat.le_refl n
  | n, x :: xs => by
    have h1 := copyA_counter_le n x
    have h2 := copyAList_counter_le (copyA n x).2 xs
    simp only [copyAList]
    omega

/-- copyA_counter_le over an entry list. -/
theorem copyAEntries_counter_le : ∀ (n : Nat) (es : List (String × JSValueA)),
    n ≤ (copyAEntries n es).2
  | n, [] => Nat.le_refl n
  | n, (k, x) :: rest => by
    have h1 := copyA_counter_le n x
    have h2 := copyAEntries_counter_le (copyA n x).2 rest
    simp only [copyAEntries]
    omega
end

mutual
/-- The instrumented copy is deep-equal to its input: forgetting the
identities, copy and input coincide. -/
theorem copyA_erase : ∀ (n : Nat) (v : JSValueA), eraseA (copyA n v).1 = eraseA v
  | n, .aArr _ l => by
    simp only [copyA, eraseA]
    rw [copyAList_erase]
  | n, .aObj _ es => by
    simp only [copyA, eraseA]
    rw [copyAEntries_erase]
  | _, .aNull => rfl
  | _, .aUndef => rfl
  | _, .aBool _ => rfl
  | _, .aNum _ => rfl
  | _, .aStr _ => rfl

/-- copyA_erase over an element list. -/
theorem copyAList_erase : ∀ (n : Nat) (l : List JSValueA),
    eraseAList (copyAList n l).1 = eraseAList l
  | _, [] => rfl
  | n, x :: xs => by
    simp only [copyAList, eraseAList]
    rw [copyA_erase, copyAList_erase]

/-- copyA_erase over an entry list. -/
theorem copyAEntries_erase : ∀ (n : Nat) (es : List (String × JSValueA)),
    eraseAEntries (copyAEntries n es).1 = eraseAEntries es
  | _, [] => rfl
  | n, (k, x) :: rest => by
    simp only [copyAEntries, eraseAEntries]
    rw [copyA_erase, copyAEntries_erase]
end

mutual
/-- Every container identity of the instrumented copy is at least the
starting counter: the copy allocates only fresh containers. -/
theorem copyA_ids : ∀ (n : Nat) (v : JSValueA) (i : Nat),
    i ∈ containerIds (copyA n v).1 → n ≤ i
  | n, .aArr _ l, i => by
    simp only [copyA, containerIds]
    intro hi
    rcases List.mem_cons.mp hi with h | h
    · omega
    · have := copyAList_ids (n + 1) l i h
      omega
  | n, .aObj _ es, i => by
    simp only [copyA, containerIds]
    intro hi
    rcases List.mem_cons.mp hi with h | h
    · omega
    · have := copyAEntries_ids (n + 1) es i h
      omega
  | _, .aNull, i => by simp [copyA, containerIds]
  | _, .aUndef, i => by simp [copyA, containerIds]
  | _, .aBool _, i => by simp [copyA, containerIds]
  | _, .aNum _, i => by simp [copyA, containerIds]
  | _, .aStr _, i => by simp [copyA, containerIds]

/-- copyA_ids over an element list. -/
theorem copyAList_ids : ∀ (n : Nat) (l : List JSValueA) (i : Nat),
    i ∈ containerIdsList (copyAList n l).1 → n ≤ i
  | n, [], i => by simp [copyAList, containerIdsList]
  | n, x :: xs, i => by
    simp only [copyAList, containerIdsList]
    intro hi
    rcases List.mem_append.mp hi with h | h
    · exact copyA_ids n x i h
    · have h1 := copyA_counter_le n x
      have h2 := copyAList_ids (copyA n x).2 xs i h
      omega

/-- copyA_ids over an entry list. -/
theorem copyAEntries_ids : ∀ (n : Nat) (es : List (String × JSValueA)) (i : Nat),
    i ∈ containerIdsEntries (copyAEntries n es).1 → n ≤ i
  | n, [], i => by simp [copyAEntries, containerIdsEntries]
  | n, (k, x) :: rest, i => by
    simp only [copyAEntries, containerIdsEntries]
    intro hi
    rcases List.mem_append.mp hi with h | h
    · exact copyA_ids n x i h
    · have h1 := copyA_counter_le n x
      have h2 := copyAEntries_ids (copyA n x).2 rest i h
      omega
end

mutual
/-- With the always-absent handler the recursiveMapper visit reproduces
any promise-free value exactly, at every path. -/
theorem rmVisit_absent_id : ∀ (v : JSValue) (p : TPath), promiseFree v = true →
    rmVisit (fun _ _ => none) v p = v
  | vArr l, p, h => by
    simp only [rmVisit]
    rw [rmArrFold_absent_id l p 0 (by simpa [promiseFree] using h)]
  | vObj es, p, h => by
    simp only [rmVisit]
    rw [rmObjFold_absent_id es p (by simpa [promiseFree] using h)]
  | vPromise _, _, h => by simp [promiseFree] at h
  | vNull, _, _ => rfl
  | vUndef, _, _ => rfl
  | vBool _, _, _ => rfl
  | vNum _, _, _ => rfl
  | vStr _, _, _ => rfl

/-- rmVisit_absent_id over an element list. -/
theorem rmArrFold_absent_id : ∀ (l : List JSValue) (p : TPath) (i : Nat),
    promiseFreeList l = true → rmArrFold (fun _ _ => none) l p i = l
  | [], _, _, _ => rfl
  | x :: xs, p, i, h => by
    have hx : promiseFree x = true ∧ promiseFreeList xs = true := by
      simpa [promiseFreeList, Bool.and_eq_true] using h
    simp only [rmArrFold]
    rw [rmVisit_absent_id x (p ++ [JSKey.idx i]) hx.1,
      rmArrFold_absent_id xs p (i + 1) hx.2]

/-- rmVisit_absent_id over an entry list. -/
theorem rmObjFold_absent_id : ∀ (es : List (String × JSValue)) (p : TPath),
    promiseFreeEntries es = true → rmObjFold (fun _ _ => none) es p = es
  | [], _, _ => rfl
  | (k, x) :: rest, p, h => by
    have hx : promiseFree x = true ∧ promiseFreeEntries rest = true := by
      simpa [promiseFreeEntries, Bool.and_eq_true] using h
    simp only [rmObjFold]
    rw [rmVisit_absent_id x (p ++ [JSKey.str k]) hx.1,
      rmObjFold_absent_id rest p hx.2]
end

/-- C2: recursiveMapper with the always-absent handler returns a value
deep-equal to any promise-free input — so every array keeps its length
and element order and every mapping keeps its keys — and, in the
allocation-instrumented copy, every container of the output carries an
identity at least the starting counter, hence is none of the containers
of an input whose identities lie below the counter: every container node
of the result is newly constructed. -/
theorem structural_copy_fresh_deep_equal :
    (∀ (v : JSValue), promiseFree v = true →
        recursiveMapper (fun _ _ => none) v = v) ∧
    (∀ (w : JSValueA) (n0 : Nat), (∀ i ∈ containerIds w, i < n0) →
        eraseA (copyA n0 w).1 = eraseA w ∧
        ∀ i ∈ containerIds (copyA n0 w).1, i ∉ containerIds w) := by
  constructor
  · intro v h
    exact rmVisit_absent_id v [] h
  · intro w n0 hlt
    refine ⟨copyA_erase n0 w, ?_⟩
    intro i hi hmem
    have h1 := copyA_ids n0 w i hi
    have h2 := hlt i hmem
    omega

/-- Witness for structural_copy_fresh_deep_equal: the singleton array of
a one-entry object is copied deep-equal, and its instrumented copy from
counter 2 only carries fresh container identities. -/
theorem structural_copy_fresh_deep_equal_witness :
    recursiveMapper (fun _ _ => none) (vArr [vObj [("a", vNum 1)]]) =
      vArr [vObj [("a", vNum 1)]] ∧
    (eraseA (copyA 2 (.aArr 0 [.aObj 1 [("a", .aNum 3)]])).1 =
        eraseA (.aArr 0 [.aObj 1 [("a", .aNum 3)]]) ∧
      ∀ i ∈ containerIds (copyA 2 (.aArr 0 [.aObj 1 [("a", .aNum 3)]])).1,
        i ∉ containerIds (.aArr 0 [.aObj 1 [("a", .aNum 3)]])) := by
  constructor
  · exact structural_copy_fresh_deep_equal.1 _ rfl
  · refine structural_copy_fresh_deep_equal.2 _ 2 ?_
    intro i hi
    simp [containerIds, containerIdsList, containerIdsEntries] at hi
    omega

/-- Inserting a discovered pair whose depth is n into a list leaves the
depth-n subsequence with the pair in front: every entry the insertion
walks past is strictly deeper, hence not of depth n. -/
theorem filt_orderedInsert_true {n : Nat} (a : IPromisePath)
    (ha : (a.path.length == n) = true) :
    ∀ l : List IPromisePath,
      (l.orderedInsert (fun p1 p2 => p2.path.length ≤ p1.path.length) a).filter
          (fun pp => pp.path.length == n) =
        a :: l.filter (fun pp => pp.path.length == n)
  | [] => by simp [List.orderedInsert, List.filter, ha]
  | b :: l => by
    by_cases hr : b.path.length ≤ a.path.length
    · simp [List.orderedInsert, hr, List.filter, ha]
    · have hb : (b.path.length == n) = false := by
        have han : a.path.length = n := by simpa using ha
        have : b.path.length ≠ n := by omega
        simpa using this
      simp only [List.orderedInsert, if_neg hr, List.filter, hb]
      rw [filt_orderedInsert_true a ha l]

/-- Inserting a discovered pair of a different depth than n does not
change the depth-n subsequence. -/
theorem filt_orderedInsert_false {n : Nat} (a : IPromisePath)
    (ha : (a.path.length == n) = false) :
    ∀ l : List IPromisePath,
      (l.orderedInsert (fun p1 p2 => p2.path.length ≤ p1.path.length) a).filter
          (fun pp => pp.path.length == n) =
        l.filter (fun pp => pp.path.length == n)
  | [] => by simp [List.orderedInsert, List.filter, ha]
  | b :: l => by
    by_cases hr : b.path.length ≤ a.path.length
    · simp [List.orderedInsert, hr, List.filter, ha]
    · simp only [List.orderedInsert, if_neg hr, List.filter]
      rw [filt_orderedInsert_false a ha l]

/-- C6: the sort the resolver applies to the discovered (promise, path)
pairs before splicing orders them with longer paths first (along the
output, every later entry has a path no longer than an earlier one), is
a permutation of the discovery list, and preserves, for each depth n,
the subsequence of entries of that depth — pairs of equal depth keep
their relative discovery order. -/
theorem sort_deepest_first_stable (l : List IPromisePath) :
    List.Pairwise (fun p1 p2 => p2.path.length ≤ p1.path.length)
        (sortPromisePaths l) ∧
    (∀ n : Nat, (sortPromisePaths l).filter (fun pp => pp.path.length == n) =
        l.filter (fun pp => pp.path.length == n)) ∧
    List.Perm (sortPromisePaths l) l := by
  haveI htot : IsTotal IPromisePath (fun p1 p2 => p2.path.length ≤ p1.path.length) :=
    ⟨fun a b => Nat.le_total b.path.length a.path.length⟩
  haveI htrans : IsTrans IPromisePath (fun p1 p2 => p2.path.length ≤ p1.path.length) :=
    ⟨fun _ _ _ h1 h2 => Nat.le_trans h2 h1⟩
  refine ⟨List.sorted_insertionSort _ l, ?_, List.perm_insertionSort _ l⟩
  intro n
  induction l with
  | nil => rfl
  | cons x xs ih =>
    show (List.orderedInsert _ x (List.insertionSort _ xs)).filter _ = _
    by_cases hx : (x.path.length == n) = true
    · rw [filt_orderedInsert_true x hx]
      rw [show List.insertionSort (fun p1 p2 => p2.path.length ≤ p1.path.length) xs =
          sortPromisePaths xs from rfl, ih]
      simp [List.filter_cons, hx]
    · have hx2 : (x.path.length == n) = false := by simpa using hx
      rw [filt_orderedInsert_false x hx2]
      rw [show List.insertionSort (fun p1 p2 => p2.path.length ≤ p1.path.length) xs =
          sortPromisePaths xs from rfl, ih]
      simp [List.filter_cons, hx2]

/-- Allocation appends one accumulator: the address is the old store
size, old cells are untouched, and the new cell holds the seed contents. -/
theorem allocAcc_spec {α : Type} (st : Store α) (xs : List α) :
    (allocAcc st xs).1 = st.length ∧
    st.length ≤ (allocAcc st xs).2.length ∧
    (∀ j, j < st.length → storeGet (allocAcc st xs).2 j = storeGet st j) ∧
    storeGet (allocAcc st xs).2 st.length = xs := by
  refine ⟨rfl, by simp [allocAcc], ?_, ?_⟩
  · intro j hj
    exact List.getD_append _ _ _ _ hj
  · show (st ++ [xs]).getD st.length [] = xs
    rw [List.getD_append_right _ _ _ _ (Nat.le_refl _)]
    simp

/-- Reading a cell other than the one pushed into is unchanged. -/
theorem storeGet_storeAppend_ne {α : Type} (st : Store α) (r j : Nat)
    (ys : List α) (h : j ≠ r) : storeGet (storeAppend st r ys) j = storeGet st j := by
  simp [storeAppend, storeGet, List.getD_eq_getElem?_getD,
    List.getElem?_set_ne (fun he => h he.symm)]

/-- Reading the cell pushed into sees the appended elements. -/
theorem storeGet_storeAppend_self {α : Type} (st : Store α) (r : Nat)
    (ys : List α) (h : r < st.length) :
    storeGet (storeAppend st r ys) r = storeGet st r ++ ys := by
  simp [storeAppend, storeGet, List.getD_eq_getElem?_getD,
    List.getElem?_set_self, h]

/-- Pushing into a cell does not change the store size. -/
theorem length_storeAppend {α : Type} (st : Store α) (r : Nat) (ys : List α) :
    (storeAppend st r ys).length = st.length := by
  simp [storeAppend]

/-- Reading a rewritten live cell sees the new contents. -/
theorem storeGet_set_self {α : Type} (st : Store α) (r : Nat) (ys : List α)
    (h : r < st.length) : storeGet (st.set r ys) r = ys := by
  simp [storeGet, List.getD_eq_getElem?_getD, List.getElem?_set_self, h]

mutual
/-- The stateful extractAll visit returns the address of the store cell
it allocates first, only ever grows the store, leaves every cell of the
incoming store unchanged, and leaves in its own cell exactly the pure
extraction of the node — whatever the incoming store holds. -/
theorem eaVisit_spec {α : Type} (om : JSValue → Option α) :
    ∀ (st : Store α) (v : JSValue),
      (eaVisit om st v).1 = st.length ∧
      st.length ≤ (eaVisit om st v).2.length ∧
      (∀ j, j < st.length → storeGet (eaVisit om st v).2 j = storeGet st j) ∧
      storeGet (eaVisit om st v).2 st.length = eaPure om v
  | st, vArr l => by
    cases hom : om (vArr l) with
    | some t =>
      have h := allocAcc_spec st [t]
      simpa only [eaVisit, hom, eaPure] using h
    | none =>
      have hlen : st.length < (st ++ [([] : List α)]).length := by simp
      have h := eaArrFold_spec om (st ++ [[]]) st.length l hlen
      simp only [eaVisit, hom, allocAcc, eaPure]
      refine ⟨trivial, ?_, ?_, ?_⟩
      · have h1 := h.1
        simp only [List.length_append, List.length_cons, List.length_nil] at h1
        omega
      · intro j hj
        rw [h.2.1 j (by simp only [List.length_append]; omega) (by omega)]
        exact List.getD_append _ _ _ _ hj
      · rw [h.2.2]
        have hself : storeGet (st ++ [([] : List α)]) st.length = [] := by
          show (st ++ [([] : List α)]).getD st.length [] = []
          rw [List.getD_append_right _ _ _ _ (Nat.le_refl _)]
          simp
        rw [hself]
        simp
  | st, vObj es => by
    cases hom : om (vObj es) with
    | some t =>
      have h := allocAcc_spec st [t]
      simpa only [eaVisit, hom, eaPure] using h
    | none =>
      have hlen : st.length < (st ++ [([] : List α)]).length := by simp
      have h := eaObjFold_spec om (st ++ [[]]) st.length es hlen
      simp only [eaVisit, hom, allocAcc, eaPure]
      refine ⟨trivial, ?_, ?_, ?_⟩
      · have h1 := h.1
        simp only [List.length_append, List.length_cons, List.length_nil] at h1
        omega
      · intro j hj
        rw [h.2.1 j (by simp only [List.length_append]; omega) (by omega)]
        exact List.getD_append _ _ _ _ hj
      · rw [h.2.2]
        have hself : storeGet (st ++ [([] : List α)]) st.length = [] := by
          show (st ++ [([] : List α)]).getD st.length [] = []
          rw [List.getD_append_right _ _ _ _ (Nat.le_refl _)]
          simp
        rw [hself]
        simp
  | st, vNull => by
    cases hom : om vNull with
    | some t => simpa only [eaVisit, hom, eaPure] using allocAcc_spec st [t]
    | none => simpa only [eaVisit, hom, eaPure] using allocAcc_spec st []
  | st, vUndef => by
    cases hom : om vUndef with
    | some t => simpa only [eaVisit, hom, eaPure] using allocAcc_spec st [t]
    | none => simpa only [eaVisit, hom, eaPure] using allocAcc_spec st []
  | st, vBool b => by
    cases hom : om (vBool b) with
    | some t => simpa only [eaVisit, hom, eaPure] using allocAcc_spec st [t]
    | none => simpa only [eaVisit, hom, eaPure] using allocAcc_spec st []
  | st, vNum n => by
    cases hom : om (vNum n) with
    | some t => simpa only [eaVisit, hom, eaPure] using allocAcc_spec st [t]
    | none => simpa only [eaVisit, hom, eaPure] using allocAcc_spec st []
  | st, vStr s => by
    cases hom : om (vStr s) with
    | some t => simpa only [eaVisit, hom, eaPure] using allocAcc_spec st [t]
    | none => simpa only [eaVisit, hom, eaPure] using allocAcc_spec st []
  | st, vPromise inner => by
    cases hom : om (vPromise inner) with
    | some t => simpa only [eaVisit, hom, eaPure] using allocAcc_spec st [t]
    | none => simpa only [eaVisit, hom, eaPure] using allocAcc_spec st []

/-- The array fold of the stateful extractAll, pushing into a live cell
r, only grows the store, changes no other live cell, and extends the
cell r by the pure extraction of the elements in order. -/
theorem eaArrFold_spec {α : Type} (om : JSValue → Option α) :
    ∀ (st : Store α) (r : Nat) (l : List JSValue), r < st.length →
      st.length ≤ (eaArrFold om st r l).length ∧
      (∀ j, j < st.length → j ≠ r →
        storeGet (eaArrFold om st r l) j = storeGet st j) ∧
      storeGet (eaArrFold om st r l) r = storeGet st r ++ eaPureList om l
  | st, r, [], hr => by
    refine ⟨Nat.le_refl _, fun j _ _ => rfl, ?_⟩
    simp [eaArrFold, eaPureList]
  | st, r, x :: xs, hr => by
    have hv := eaVisit_spec om st x
    have hlen1 : st.length ≤ (eaVisit om st x).2.length := hv.2.1
    have hget : storeGet (eaVisit om st x).2 (eaVisit om st x).1 = eaPure om x := by
      rw [hv.1]
      exact hv.2.2.2
    have hlen2 :
        (storeAppend (eaVisit om st x).2 r
          (storeGet (eaVisit om st x).2 (eaVisit om st x).1)).length =
          (eaVisit om st x).2.length := length_storeAppend _ _ _
    have hr2 : r < (storeAppend (eaVisit om st x).2 r
        (storeGet (eaVisit om st x).2 (eaVisit om st x).1)).length := by
      rw [hlen2]; omega
    have ih := eaArrFold_spec om
      (storeAppend (eaVisit om st x).2 r
        (storeGet (eaVisit om st x).2 (eaVisit om st x).1)) r xs hr2
    simp only [eaArrFold]
    refine ⟨?_, ?_, ?_⟩
    · have := ih.1
      rw [hlen2] at this
      omega
    · intro j hj hjr
      rw [ih.2.1 j (by rw [hlen2]; omega) hjr]
      rw [storeGet_storeAppend_ne _ _ _ _ hjr]
      exact hv.2.2.1 j hj
    · rw [ih.2.2]
      rw [storeGet_storeAppend_self _ _ _ (by omega)]
      rw [hget, hv.2.2.1 r hr, eaPureList]
      rw [List.append_assoc]

/-- The object fold analogue of eaArrFold_spec over the entries. -/
theorem eaObjFold_spec {α : Type} (om : JSValue → Option α) :
    ∀ (st : Store α) (r : Nat) (es : List (String × JSValue)), r < st.length →
      st.length ≤ (eaObjFold om st r es).length ∧
      (∀ j, j < st.length → j ≠ r →
        storeGet (eaObjFold om st r es) j = storeGet st j) ∧
      storeGet (eaObjFold om st r es) r = storeGet st r ++ eaPureEntries om es
  | st, r, [], hr => by
    refine ⟨Nat.le_refl _, fun j _ _ => rfl, ?_⟩
    simp [eaObjFold, eaPureEntries]
  | st, r, (k, x) :: rest, hr => by
    have hv := eaVisit_spec om st x
    have hget : storeGet (eaVisit om st x).2 (eaVisit om st x).1 = eaPure om x := by
      rw [hv.1]
      exact hv.2.2.2
    have hlen2 :
        (storeAppend (eaVisit om st x).2 r
          (storeGet (eaVisit om st x).2 (eaVisit om st x).1)).length =
          (eaVisit om st x).2.length := length_storeAppend _ _ _
    have hr2 : r < (storeAppend (eaVisit om st x).2 r
        (storeGet (eaVisit om st x).2 (eaVisit om st x).1)).length := by
      rw [hlen2]
      have := hv.2.1
      omega
    have ih := eaObjFold_spec om
      (storeAppend (eaVisit om st x).2 r
        (storeGet (eaVisit om st x).2 (eaVisit om st x).1)) r rest hr2
    simp only [eaObjFold]
    refine ⟨?_, ?_, ?_⟩
    · have := ih.1
      rw [hlen2] at this
      have := hv.2.1
      omega
    · intro j hj hjr
      rw [ih.2.1 j (by rw [hlen2]; have := hv.2.1; omega) hjr]
      rw [storeGet_storeAppend_ne _ _ _ _ hjr]
      exact hv.2.2.1 j hj
    · rw [ih.2.2]
      rw [storeGet_storeAppend_self _ _ _ (by have := hv.2.1; omega)]
      rw [hget, hv.2.2.1 r hr, eaPureEntries]
      rw [List.append_assoc]
end

/-- A top-level run of the stateful extractAll answers the pure
extraction of its input, whatever store it starts against. -/
theorem extractAllStateful_fst {α : Type} (om : JSValue → Option α)
    (st : Store α) (a : JSValue) :
    (extractAllStateful om st a).1 = eaPure om a := by
  have h := eaVisit_spec om st a
  show storeGet (eaVisit om st a).2 (eaVisit om st a).1 = eaPure om a
  rw [h.1]
  exact h.2.2.2

/-- The flat fold loop over a live accumulator cell computes the pure
left fold of the callback contents action over the entries. -/
theorem recordReducerLoop_get {α : Type} (combC : List α → JSValue → String → List α) :
    ∀ (st : Store α) (r : Nat) (es : List (String × JSValue)), r < st.length →
      storeGet (recordReducerLoop combC st r es) r =
        es.foldl (fun acc kx => combC acc kx.2 kx.1) (storeGet st r)
  | _, _, [], _ => rfl
  | st, r, (k, x) :: rest, h => by
    simp only [recordReducerLoop, List.foldl_cons]
    rw [recordReducerLoop_get combC (st.set r (combC (storeGet st r) x k)) r rest
      (by simpa using h)]
    rw [storeGet_set_self]
    exact h

/-- A top-level run of the stateful flat record fold answers the pure
left fold from the empty accumulator, whatever store it starts against. -/
theorem recordReducerRun_fst {α : Type} (combC : List α → JSValue → String → List α)
    (st : Store α) (es : List (String × JSValue)) :
    (recordReducerRun combC st es).1 =
      es.foldl (fun acc kx => combC acc kx.2 kx.1) [] := by
  simp only [recordReducerRun, allocAcc]
  rw [recordReducerLoop_get combC (st ++ [[]]) st.length es (by simp)]
  have hself : storeGet (st ++ [([] : List α)]) st.length = [] := by
    show (st ++ [([] : List α)]).getD st.length [] = []
    rw [List.getD_append_right _ _ _ _ (Nat.le_refl _)]
    simp
  rw [hself]

/-- C8: re-use isolation.  Running the same constructed fold a second
time against the store the first call left behind answers exactly what a
run against the empty store answers — nothing of the first accumulator
leaks into the second result — both for the recursive extractAll fold
and for the flat record fold, whose seeds are factories allocating a
fresh accumulator per call and whose callbacks only touch their own
accumulator. -/
theorem reuse_isolation :
    (∀ (α : Type) (om : JSValue → Option α) (st0 : Store α) (v1 v2 : JSValue),
        (extractAllStateful om (extractAllStateful om st0 v1).2 v2).1 =
          (extractAllStateful om [] v2).1) ∧
    (∀ (α : Type) (combC : List α → JSValue → String → List α) (st0 : Store α)
        (es1 es2 : List (String × JSValue)),
        (recordReducerRun combC (recordReducerRun combC st0 es1).2 es2).1 =
          (recordReducerRun combC [] es2).1) := by
  constructor
  · intro α om st0 v1 v2
    rw [extractAllStateful_fst, extractAllStateful_fst]
  · intro α combC st0 es1 es2
    rw [recordReducerRun_fst, recordReducerRun_fst]
